import Mathlib

/-!
# Verification of the BOLT `LFenceInsertion` pass

A shallow embedding of `src/Passes/LFenceInsertion.cpp`
(`LFenceInsertion::runOnFunctions`).  Instructions are modelled as either
opaque original instructions carrying the results of the external classifier
predicates (`MIB.isConditionalBranch`, `isLoad`, `isReturn`, `isIndirectCall`,
`isIndirectBranch`, `isLfence`), an optional decomposed memory operand
(`IndirectBranchInfo::Memory`) and the external encoder's byte size
(`BC.computeCodeSize` on that one instruction), or as the instructions the
pass synthesizes through `MIB.createLfence`, `createNot`, `createPushRegister`,
`createPushRegisterIndirect`, `createPopRegister`, `createLea`,
`createSaveToStack` and `createReturn`.
-/

/-- Decomposed memory operand, mirroring `IndirectBranchInfo::MemOpInfo`
(`BaseRegNum`, `ScaleValue`, `IndexRegNum`, `DispValue`, `DispExpr`,
`SegRegNum`).  Registers are identified by their x86-64 hardware encoding
number (rax = 0, …, rsi = 6, rdi = 7, r8 = 8, …); `none` stands for
`X86::NoRegister`.  `dispExpr` records whether the displacement is a symbolic
expression (`DispExpr != nullptr`), which always encodes as a 32-bit field. -/
structure MemOperand where
  baseReg : Option Nat := none
  scaleValue : Nat := 1
  indexReg : Option Nat := none
  dispValue : Int := 0
  dispExpr : Bool := false
  segReg : Option Nat := none
deriving DecidableEq, Repr

/-- The classifier results the pass queries on an original instruction,
one flag per `MCPlusBuilder` predicate used in the dispatch chain. -/
structure InstFlags where
  condBranch : Bool := false
  load : Bool := false
  ret : Bool := false
  indirectCall : Bool := false
  indirectBranch : Bool := false
  lfence : Bool := false
deriving DecidableEq, Repr

/-- An instruction: either an original instruction of the input binary
(opaque, described by its classifier flags, optional decomposed memory
operand, and encoder byte size), or one of the instructions the pass
synthesizes. -/
inductive Inst where
  /-- An original instruction of the input binary. `size` is the byte count
  the external encoder reports for it (`BC.computeCodeSize` over just this
  instruction). -/
  | other (flags : InstFlags) (mem : Option MemOperand) (size : Nat)
  /-- Synthesized `lfence`, from `MIB.createLfence`. -/
  | lfence
  /-- Synthesized `notq (%rsp)`, from `MIB.createNot(..., getStackPointer(), 1, NoReg, 0,
  nullptr, NoReg, 8)`. -/
  | notq
  /-- Synthesized `pushq %r`, from `MIB.createPushRegister(..., r, 8)`. -/
  | pushReg (r : Nat)
  /-- Synthesized `pushq mem`, from `MIB.createPushRegisterIndirect` replaying a
  decomposed memory operand. -/
  | pushMem (m : MemOperand)
  /-- Synthesized `popq %r`, from `MIB.createPopRegister(..., r, 8)`. -/
  | popReg (r : Nat)
  /-- Synthesized `leaq off(%rip), %r`, from `MIB.createLea(getInstructionPointer(), 1,
  NoReg, off, nullptr, NoReg, r, 8)`. -/
  | lea (off : Int) (r : Nat)
  /-- Synthesized `movq %r, 0x8(%rsp)`, from `MIB.createSaveToStack(getStackPointer(), 8,
  r, 8)`. -/
  | saveToStack (r : Nat)
  /-- Synthesized `retq`, from `MIB.createReturn`. -/
  | ret
deriving DecidableEq, Repr

namespace Inst

/-- Predicate `MIB.isConditionalBranch`. None of the synthesized instructions is a
conditional branch. -/
def isConditionalBranch : Inst → Bool
  | other f _ _ => f.condBranch
  | _ => false

/-- Predicate `MIB.isLoad`: the instruction has a memory operand and may read memory.
Among the synthesized instructions this holds for `notq (%rsp)`
(read-modify-write), the indirect push (reads the target from memory) and
`popq` (reads the stack), matching the x86 instruction descriptions. -/
def isLoad : Inst → Bool
  | other f _ _ => f.load
  | notq => true
  | pushMem _ => true
  | popReg _ => true
  | _ => false

/-- Predicate `MIB.isReturn`. The synthesized `retq` is a return. -/
def isReturn : Inst → Bool
  | other f _ _ => f.ret
  | ret => true
  | _ => false

/-- Predicate `MIB.isIndirectCall`. -/
def isIndirectCall : Inst → Bool
  | other f _ _ => f.indirectCall
  | _ => false

/-- Predicate `MIB.isIndirectBranch`. -/
def isIndirectBranch : Inst → Bool
  | other f _ _ => f.indirectBranch
  | _ => false

/-- Predicate `MIB.isLfence`. The synthesized fence is an `lfence`. -/
def isLfence : Inst → Bool
  | other f _ _ => f.lfence
  | lfence => true
  | _ => false

/-- The decomposed memory operand `IndirectBranchInfo` extracts from a
matched indirect call or jump (only original instructions are ever matched
by those two mitigators). -/
def memOperand : Inst → Option MemOperand
  | other _ m _ => m
  | _ => none

end Inst

/-- Byte length of an x86-64 `FF /r`-style one-byte-opcode instruction with a
memory operand (indirect `callq`/`jmpq` and `pushq mem` all encode this way):
optional segment-override prefix, optional REX prefix (for extended base or
index registers), opcode, ModRM, optional SIB, and displacement bytes.
Models the external instruction encoder the pass consumes; an indirect call
and an indirect push through the same memory operand encode to the same
number of bytes because only the opcode and the ModRM reg field differ. -/
def ffMemEncodingSize (m : MemOperand) : Nat :=
  (if m.segReg.isSome then 1 else 0) +
  (if (m.baseReg.getD 0) ≥ 8 ∨ (m.indexReg.getD 0) ≥ 8 then 1 else 0) +
  1 + 1 +
  (if m.indexReg.isSome ∨ m.baseReg = none ∨ m.baseReg = some 4 ∨
      m.baseReg = some 12 then 1 else 0) +
  (if m.dispExpr then 4
   else if m.baseReg = none then 4
   else if m.dispValue = 0 ∧ m.baseReg ≠ some 5 ∧ m.baseReg ≠ some 13 then 0
   else if -128 ≤ m.dispValue ∧ m.dispValue ≤ 127 then 1
   else 4)

/-- Byte size of an instruction as reported by the external encoder
(`BC.computeCodeSize` on a single instruction).  For an original instruction
this is the size the encoder reported; for the synthesized instructions these
are their x86-64 encoding lengths (`lfence` = `0f ae e8`;
`notq (%rsp)` = `48 f7 14 24`; `pushq %r`/`popq %r` = one byte plus a REX
prefix for r8–r15; `leaq off32(%rip), %r` = seven bytes;
`movq %r, 0x8(%rsp)` = `(rex) 89 /r sib disp8`; `retq` = `c3`). -/
def encSize : Inst → Nat
  | .other _ _ sz => sz
  | .lfence => 3
  | .notq => 4
  | .pushReg r => if r ≥ 8 then 2 else 1
  | .pushMem m => ffMemEncodingSize m
  | .popReg r => if r ≥ 8 then 2 else 1
  | .lea _ _ => 7
  | .saveToStack _ => 5
  | .ret => 1

/-- The scratch register `MIB.getIntArgRegister(0)`: `%rdi`
(hardware encoding number 7). -/
def scratchReg : Nat := 7

/-- The pass's configuration: the master switch `opts::InsertLFences` and the
five per-class toggles. -/
structure Config where
  insertLFences : Bool
  lfenceConditionalBranches : Bool
  lfenceLoads : Bool
  lfenceReturns : Bool
  lfenceIndirectCalls : Bool
  lfenceIndirectJumps : Bool
deriving DecidableEq, Repr

/-- The five statistics counters (`LFencedBranches`, `LFencedLoads`,
`LFencedRets`, `LFencedIndirectCalls`, `LFencedIndirectJmps`). -/
structure Counters where
  lfencedBranches : Nat := 0
  lfencedLoads : Nat := 0
  lfencedRets : Nat := 0
  lfencedIndirectCalls : Nat := 0
  lfencedIndirectJmps : Nat := 0
deriving DecidableEq, Repr

instance : Add Counters :=
  ⟨fun a b =>
    ⟨a.lfencedBranches + b.lfencedBranches, a.lfencedLoads + b.lfencedLoads,
     a.lfencedRets + b.lfencedRets,
     a.lfencedIndirectCalls + b.lfencedIndirectCalls,
     a.lfencedIndirectJmps + b.lfencedIndirectJmps⟩⟩

/-- The six dispatch categories of the pass's `if`/`else if` chain, in
source order. -/
inductive Category where
  | condBranch
  | load
  | ret
  | indirectCall
  | indirectJump
  | fence
deriving DecidableEq, Repr

/-- Position of a category in the dispatch chain (its precedence; smaller
binds first). -/
def Category.precIdx : Category → Nat
  | .condBranch => 0
  | .load => 1
  | .ret => 2
  | .indirectCall => 3
  | .indirectJump => 4
  | .fence => 5

/-- The raw guard of each arm of the dispatch chain, toggles included,
exactly as written in the source:
`opts::LFenceConditionalBranches && MIB.isConditionalBranch(Inst)`;
`opts::LFenceLoads && MIB.isLoad(Inst) && !MIB.isIndirectBranch(Inst) &&
!MIB.isIndirectCall(Inst)`;
`opts::LFenceReturns && MIB.isReturn(Inst) && !MIB.isIndirectBranch(Inst)`;
`opts::LFenceIndirectCalls && MIB.isIndirectCall(Inst) && MIB.isLoad(Inst) &&
!MIB.isIndirectBranch(Inst)`;
`opts::LFenceIndirectJumps && MIB.isIndirectBranch(Inst) && MIB.isLoad(Inst)`;
`MIB.isLfence(Inst)`. -/
def categoryGuard (cfg : Config) : Category → Inst → Bool
  | .condBranch, i => cfg.lfenceConditionalBranches && i.isConditionalBranch
  | .load, i => cfg.lfenceLoads && i.isLoad && !i.isIndirectBranch &&
      !i.isIndirectCall
  | .ret, i => cfg.lfenceReturns && i.isReturn && !i.isIndirectBranch
  | .indirectCall, i => cfg.lfenceIndirectCalls && i.isIndirectCall &&
      i.isLoad && !i.isIndirectBranch
  | .indirectJump, i => cfg.lfenceIndirectJumps && i.isIndirectBranch &&
      i.isLoad
  | .fence, i => i.isLfence

/-- The dispatch chain: which single arm of the `if`/`else if` chain handles
the instruction (`none` for the final `else`, which only resets the adjacency
state). -/
def classify (cfg : Config) (i : Inst) : Option Category :=
  if categoryGuard cfg .condBranch i then some .condBranch
  else if categoryGuard cfg .load i then some .load
  else if categoryGuard cfg .ret i then some .ret
  else if categoryGuard cfg .indirectCall i then some .indirectCall
  else if categoryGuard cfg .indirectJump i then some .indirectJump
  else if categoryGuard cfg .fence i then some .fence
  else none

/-- The eleven-instruction sequence that replaces a matched indirect call
through memory operand `m`, where `sz` is the encoder's byte size of the
original call instruction.  The `leaq` offset is
`0x15 + BC.computeCodeSize(It, std::next(It))`, i.e. `0x15 + sz`. -/
def callSeq (m : MemOperand) (sz : Nat) : List Inst :=
  [.pushReg scratchReg, .pushReg scratchReg,
   .lea (0x15 + (sz : Int)) scratchReg,
   .saveToStack scratchReg, .popReg scratchReg, .lfence,
   .pushMem m, .notq, .notq, .lfence, .ret]

/-- The five-instruction sequence that replaces a matched indirect jump
through memory operand `m`. -/
def jumpSeq (m : MemOperand) : List Inst :=
  [.pushMem m, .notq, .notq, .lfence, .ret]

/-- One iteration of the instruction loop: given the adjacency state
(`LastWasLFence`) and the current instruction, returns the instructions this
iteration leaves in the block at this position (inserted instructions plus
the original, or the replacement sequence), the new adjacency state, and the
counter increments.  The iterator bookkeeping of the source (insert before
`It`, advance past the inserted instruction) means every inserted or
replacement instruction is skipped by the scan, so one source-loop iteration
corresponds to exactly one original instruction.

For the two indirect mitigators the source asserts (indirect call) or
assumes (indirect jump) that `IndirectBranchInfo` found a memory-form
target; an instruction reaching those arms without a memory operand hits the
`assert(BrInfo.isMem())`/undefined path, which cannot happen for a real
`isLoad` instruction — the model leaves such an instruction in place. -/
def lfenceStep (cfg : Config) (lastWasLFence : Bool) (inst : Inst) :
    List Inst × Bool × Counters :=
  match classify cfg inst with
  | some .condBranch =>
      ((if lastWasLFence then [inst] else [.lfence, inst]), false,
       { lfencedBranches := 1 })
  | some .load => ([inst, .lfence], true, { lfencedLoads := 1 })
  | some .ret =>
      ([.notq, .notq, .lfence, inst], false, { lfencedRets := 1 })
  | some .indirectCall =>
      match inst.memOperand with
      | some m => (callSeq m (encSize inst), false,
          { lfencedIndirectCalls := 1 })
      | none => ([inst], false, {})
  | some .indirectJump =>
      match inst.memOperand with
      | some m => (jumpSeq m, false, { lfencedIndirectJmps := 1 })
      | none => ([inst], false, {})
  | some .fence => ([inst], true, {})
  | none => ([inst], false, {})

/-- The adjacency state after processing one instruction.  It never depends
on the incoming state: the branch arm sets `LastWasLFence = false` whether or
not it inserted a fence, the load arm and the fence arm set it to `true`,
every other arm sets it to `false`. -/
def stepState (cfg : Config) (inst : Inst) : Bool :=
  match classify cfg inst with
  | some .load => true
  | some .fence => true
  | _ => false

/-- The per-block instruction scan (`for (auto It = BB.begin(); …)`),
threading the adjacency state and summing counters. -/
def runBlockGo (cfg : Config) (lastWasLFence : Bool) :
    List Inst → List Inst × Counters
  | [] => ([], {})
  | i :: rest =>
      let s := lfenceStep cfg lastWasLFence i
      let r := runBlockGo cfg s.2.1 rest
      (s.1 ++ r.1, s.2.2 + r.2)

/-- Run the pass over one basic block (`bool LastWasLFence = false` at block
entry). -/
def runBasicBlock (cfg : Config) (bb : List Inst) : List Inst × Counters :=
  runBlockGo cfg false bb

/-- A function of the binary: its blocks plus the externally-set
`isIgnored()` flag. -/
structure BinaryFunction where
  ignored : Bool
  blocks : List (List Inst)
deriving DecidableEq, Repr

/-- Sum a list of counter contributions. -/
def sumCounters (l : List Counters) : Counters := l.foldr (· + ·) {}

/-- Run the pass over one function: ignored functions are skipped
(`if (Function.isIgnored()) continue;`). -/
def runOnFunction (cfg : Config) (f : BinaryFunction) :
    BinaryFunction × Counters :=
  if f.ignored then (f, {})
  else
    let rs := f.blocks.map (runBasicBlock cfg)
    ({ f with blocks := rs.map Prod.fst }, sumCounters (rs.map Prod.snd))

/-- The pass `LFenceInsertion::runOnFunctions`: a no-op when the master switch
`opts::InsertLFences` is off, otherwise the per-function scan over all
functions of the binary.  (The source also asserts `BC.isX86()` and
`BC.HasRelocations`; those preconditions are outside this model.) -/
def runOnFunctions (cfg : Config) (fns : List BinaryFunction) :
    List BinaryFunction × Counters :=
  if !cfg.insertLFences then (fns, {})
  else
    let rs := fns.map (runOnFunction cfg)
    (rs.map Prod.fst, sumCounters (rs.map Prod.snd))

/-! ## Concrete instructions used as test inputs -/

/-- All toggles and the master switch enabled. -/
def cfgAll : Config := ⟨true, true, true, true, true, true⟩

/-- Instruction `cmp %reg1, %reg2`: matches no classifier predicate. -/
def cmpInst : Inst := .other {} none 3

/-- Instruction `je <dest>`: a conditional branch. -/
def jeInst : Inst := .other { condBranch := true } none 2

/-- Instruction `mov 0x8(%rbx), %rdi`: a load (rbx has hardware number 3). -/
def loadInst : Inst :=
  .other { load := true } (some { baseReg := some 3, dispValue := 8 }) 4

/-- Instruction `retq`: a direct return. -/
def retInst : Inst := .other { ret := true } none 1

/-- An original `lfence` already present in the input. -/
def origLfence : Inst := .other { lfence := true } none 3

/-- The memory operand `(%rsi)` (rsi has hardware number 6). -/
def memRsi : MemOperand := { baseReg := some 6 }

/-- Instruction `callq *(%rsi)`: an indirect call that is a load; the encoder reports
two bytes (`ff 16`). -/
def icallRsi : Inst :=
  .other { indirectCall := true, load := true } (some memRsi) 2

/-- Instruction `jmpq *(%rsi)`: an indirect jump that is a load; two bytes (`ff 26`). -/
def ijmpRsi : Inst :=
  .other { indirectBranch := true, load := true } (some memRsi) 2

/-- Instruction `callq *%rax`: an indirect call whose target is in a register (not a
load). -/
def icallReg : Inst := .other { indirectCall := true } none 2

/-- A function marked ignored. -/
def ignoredFn : BinaryFunction := ⟨true, [[jeInst, loadInst, retInst]]⟩

/-- Check along a list that every conditional-branch element is licensed by
the value `f` takes on the element immediately before it; `p` is the license
carried in from before the list (for the list head). -/
def chainPred (f : Inst → Bool) : Bool → List Inst → Bool
  | _, [] => true
  | p, a :: l => (!a.isConditionalBranch || p) && chainPred f (f a) l

/-- The license `chainPred` carries out of a list: `f` of the last element,
or the incoming `p` when the list is empty. -/
def endWith (f : Inst → Bool) (p : Bool) (l : List Inst) : Bool :=
  l.foldl (fun _ a => f a) p

/-- Every conditional branch in the list is immediately preceded by a fence
(`p` says whether the element just before the list, if any, is a fence). -/
def branchesFenced (p : Bool) (l : List Inst) : Bool :=
  chainPred (fun e => e.isLfence) p l

/-- How many fence instructions the conditional-branch mitigator physically
inserts while scanning the list from adjacency state `last`: its arm inserts
a fence exactly when it matches and `LastWasLFence` is false (the adjacency
state after each instruction is `stepState`, which never depends on the
incoming state).  This observer is distinct from the `LFencedBranches`
counter, which increments on every match. -/
def branchFenceInsertions (cfg : Config) (last : Bool) : List Inst → Nat
  | [] => 0
  | i :: rest =>
      (if classify cfg i = some .condBranch ∧ last = false then 1 else 0) +
      branchFenceInsertions cfg (stepState cfg i) rest

/-- The number of conditional-branch instructions in the non-ignored
functions of the binary: the conditional-branch hazard sites the scan
matches. -/
def condBranchSites (fns : List BinaryFunction) : Nat :=
  (fns.map fun f =>
    if f.ignored then 0
    else (f.blocks.map fun bb =>
      bb.countP fun i => i.isConditionalBranch).sum).sum

/-- Whether the list contains two immediately adjacent fence
instructions. -/
def hasAdjacentFences : List Inst → Bool
  | a :: b :: l => (a.isLfence && b.isLfence) || hasAdjacentFences (b :: l)
  | _ => false

/-! ## Theorems -/

/-- Componentwise addition of counters, `lfencedBranches` projection. -/
theorem Counters.add_lfencedBranches (a b : Counters) :
    (a + b).lfencedBranches = a.lfencedBranches + b.lfencedBranches := rfl

/-- The dispatch chain returns `some c` exactly when `c`'s guard holds and
no guard earlier in the chain does.  This is the workhorse behind the
claim-level theorems about classification. -/
theorem classify_spec (cfg : Config) (i : Inst) (c : Category) :
    classify cfg i = some c ↔
      (categoryGuard cfg c i = true ∧
       ∀ c' : Category, c'.precIdx < c.precIdx →
         categoryGuard cfg c' i = false) := by
  have hall : ∀ P : Category → Prop,
      (∀ c', P c') ↔
        (P .condBranch ∧ P .load ∧ P .ret ∧ P .indirectCall ∧
         P .indirectJump ∧ P .fence) := by
    intro P
    constructor
    · intro h; exact ⟨h _, h _, h _, h _, h _, h _⟩
    · rintro ⟨a, b, c, d, e, f⟩ x; cases x <;> assumption
  rw [hall]
  cases c <;> unfold classify <;> split_ifs with h1 h2 h3 h4 h5 h6 <;>
    simp_all [Category.precIdx]

/-- An instruction the chain does not send to the conditional-branch arm is
not a conditional branch, provided the branch toggle is on. -/
theorem condBr_false_of_classify (cfg : Config) (i : Inst)
    (hcb : cfg.lfenceConditionalBranches = true)
    (h : classify cfg i ≠ some .condBranch) :
    i.isConditionalBranch = false := by
  cases hb : i.isConditionalBranch
  · rfl
  · exact absurd (by simp [classify, categoryGuard, hcb, hb]) h

/-- The adjacency state the step hands to the next iteration is `stepState`,
independently of the incoming state. -/
theorem lfenceStep_state (cfg : Config) (st : Bool) (i : Inst) :
    (lfenceStep cfg st i).2.1 = stepState cfg i := by
  cases hc : classify cfg i with
  | none => simp [lfenceStep, stepState, hc]
  | some c =>
    cases c <;> cases hm : i.memOperand <;>
      simp [lfenceStep, stepState, hc, hm]

/-- The synthesized fence is classified by the informational fence arm under
every configuration. -/
theorem classify_synth_lfence (cfg : Config) :
    classify cfg Inst.lfence = some .fence := by
  simp [classify, categoryGuard, Inst.isConditionalBranch, Inst.isLoad,
    Inst.isReturn, Inst.isIndirectCall, Inst.isIndirectBranch, Inst.isLfence]

/-- Appending lists under `chainPred`. -/
theorem chainPred_append (f : Inst → Bool) (p : Bool) (l1 l2 : List Inst) :
    chainPred f p (l1 ++ l2) =
      (chainPred f p l1 && chainPred f (endWith f p l1) l2) := by
  induction l1 generalizing p with
  | nil => simp [chainPred, endWith]
  | cons a l ih =>
      simp [chainPred, endWith, List.foldl, ih (f a), Bool.and_assoc]

/-- Weakening `chainPred` along a pointwise-stronger license function. -/
theorem chainPred_mono (f g : Inst → Bool)
    (hfg : ∀ e, f e = true → g e = true) :
    ∀ (l : List Inst) (p q : Bool), (p = true → q = true) →
      chainPred f p l = true → chainPred g q l = true := by
  intro l
  induction l with
  | nil => intro p q _ _; rfl
  | cons a l ih =>
      intro p q hpq h
      rw [chainPred, Bool.and_eq_true] at h ⊢
      refine ⟨?_, ih (f a) (g a) (hfg a) h.2⟩
      rcases Bool.or_eq_true _ _ |>.mp h.1 with hb | hb
      · exact Bool.or_eq_true _ _ |>.mpr (Or.inl hb)
      · exact Bool.or_eq_true _ _ |>.mpr (Or.inr (hpq hb))

/-- C1 counterexample: on the block containing the single indirect call
`callq *(%rsi)` with all toggles and the master switch on, the pass replaces
the instruction with a sequence of 11 instructions, not 10 as the claim
states. -/
theorem indirectCall_replacement_length_ne_ten :
    (runBasicBlock cfgAll [icallRsi]).1.length = 11 ∧
    (runBasicBlock cfgAll [icallRsi]).1.length ≠ 10 := by decide

/-- C1 amended: for every instruction that is an indirect call through
a memory operand (an indirect call that is a load and not an indirect
branch — and, being a call, neither a conditional branch nor a return), with
the indirect-call toggle enabled, the pass removes the instruction and
replaces it with a sequence of exactly 11 instructions in the order of
§4.5: push scratch register (placeholder), push scratch register,
rip-relative address-compute into the scratch register, store scratch
register to the reserved stack slot, pop scratch register, fence, indirect
push replaying the original memory operand, bitwise-NOT of the top-of-stack
quadword, bitwise-NOT again, fence, return; and the indirect-call counter is
incremented once. -/
theorem indirectCall_replacement_sequence (cfg : Config) (last : Bool)
    (i : Inst) (m : MemOperand)
    (hic : cfg.lfenceIndirectCalls = true)
    (h1 : i.isIndirectCall = true) (h2 : i.isLoad = true)
    (h3 : i.isIndirectBranch = false) (h4 : i.isConditionalBranch = false)
    (h5 : i.isReturn = false) (hm : i.memOperand = some m) :
    (lfenceStep cfg last i).1 =
      [.pushReg scratchReg, .pushReg scratchReg,
       .lea (0x15 + (encSize i : Int)) scratchReg,
       .saveToStack scratchReg, .popReg scratchReg, .lfence,
       .pushMem m, .notq, .notq, .lfence, .ret] ∧
    (lfenceStep cfg last i).1.length = 11 ∧
    i ∉ (lfenceStep cfg last i).1 ∧
    (lfenceStep cfg last i).2.2 = { lfencedIndirectCalls := 1 } := by
  have hs : lfenceStep cfg last i =
      (callSeq m (encSize i), false, { lfencedIndirectCalls := 1 }) := by
    simp [lfenceStep, classify, categoryGuard, h1, h2, h3, h4, h5, hic, hm]
  refine ⟨by simp [hs, callSeq], by simp [hs, callSeq], ?_, by simp [hs]⟩
  cases i with
  | other f mm sz => simp [hs, callSeq]
  | lfence => simp [Inst.isIndirectCall] at h1
  | notq => simp [Inst.isIndirectCall] at h1
  | pushReg r => simp [Inst.isIndirectCall] at h1
  | pushMem mm => simp [Inst.isIndirectCall] at h1
  | popReg r => simp [Inst.isIndirectCall] at h1
  | lea o r => simp [Inst.isIndirectCall] at h1
  | saveToStack r => simp [Inst.isIndirectCall] at h1
  | ret => simp [Inst.isIndirectCall] at h1

/-- C1 witness: the amended theorem applied to `callq *(%rsi)` with all
toggles enabled. -/
theorem indirectCall_replacement_sequence_witness :
    (lfenceStep cfgAll false icallRsi).1 =
      [.pushReg scratchReg, .pushReg scratchReg,
       .lea (0x15 + (encSize icallRsi : Int)) scratchReg,
       .saveToStack scratchReg, .popReg scratchReg, .lfence,
       .pushMem memRsi, .notq, .notq, .lfence, .ret] ∧
    (lfenceStep cfgAll false icallRsi).1.length = 11 ∧
    icallRsi ∉ (lfenceStep cfgAll false icallRsi).1 ∧
    (lfenceStep cfgAll false icallRsi).2.2 = { lfencedIndirectCalls := 1 } :=
  indirectCall_replacement_sequence cfgAll false icallRsi memRsi
    rfl rfl rfl rfl rfl rfl rfl

/-- C2: in the indirect-call rewrite, the rip-relative offset encoded in
the address-compute (`lea`) instruction — element 2 of the replacement
sequence — equals the exact total byte length of every instruction that
follows the address-compute in the replacement sequence (store-to-stack,
pop, fence, indirect push, two NOTs, fence, return), given that the encoder
reports for the original call the `FF /r` memory-operand encoding length of
its operand (which is also the encoding length of the indirect push
replaying that operand). -/
theorem lea_offset_eq_tail_size (m : MemOperand) (sz : Nat)
    (hsz : sz = ffMemEncodingSize m) :
    (callSeq m sz)[2]? =
      some (.lea ((((callSeq m sz).drop 3).map encSize).sum : Nat)
        scratchReg) := by
  subst hsz
  simp [callSeq, encSize, scratchReg]
  omega

/-- C2 witness: the theorem applied to the operand `(%rsi)`, whose
`FF /r` encoding length is 2 bytes. -/
theorem lea_offset_eq_tail_size_witness :
    2 = ffMemEncodingSize memRsi ∧
    (callSeq memRsi 2)[2]? =
      some (.lea ((((callSeq memRsi 2).drop 3).map encSize).sum : Nat)
        scratchReg) :=
  ⟨by decide, lea_offset_eq_tail_size memRsi 2 (by decide)⟩

/-- C3: with all toggles and the master switch enabled, running the pass
on a block whose instructions are compare; conditional-jump; load; return
produces the block compare; fence; conditional-jump; load; fence; not; not;
fence; return, and the counters afterwards read branch 1, load 1, return 1,
indirect-call 0, indirect-jump 0. -/
theorem endToEnd_scenario :
    runOnFunctions cfgAll [⟨false, [[cmpInst, jeInst, loadInst, retInst]]⟩] =
      ([⟨false, [[cmpInst, .lfence, jeInst, loadInst, .lfence, .notq, .notq,
                  .lfence, retInst]]⟩],
       { lfencedBranches := 1, lfencedLoads := 1, lfencedRets := 1,
         lfencedIndirectCalls := 0, lfencedIndirectJmps := 0 }) := by decide

/-- C7: for every function whose ignored flag is set, the pass leaves
the function completely unchanged (every block's instructions identical) and
contributes nothing to any counter. -/
theorem ignored_function_unchanged (cfg : Config) (f : BinaryFunction)
    (h : f.ignored = true) :
    runOnFunction cfg f = (f, ({} : Counters)) := by
  simp [runOnFunction, h]

/-- C7 witness: the theorem applied to a concrete ignored function. -/
theorem ignored_function_unchanged_witness :
    runOnFunction cfgAll ignoredFn = (ignoredFn, ({} : Counters)) :=
  ignored_function_unchanged cfgAll ignoredFn rfl

/-- C9: an indirect call or indirect jump whose target is held in a
register rather than loaded from memory (so not a load — and, realistically,
not a conditional branch, return, or fence) matches no arm of the dispatch
chain: it is left unchanged, nothing is inserted or removed, no counter is
incremented, and the adjacency state is reset to false. -/
theorem register_indirect_untouched (cfg : Config) (last : Bool) (i : Inst)
    (hind : i.isIndirectCall = true ∨ i.isIndirectBranch = true)
    (hload : i.isLoad = false) (hcb : i.isConditionalBranch = false)
    (hret : i.isReturn = false) (hlf : i.isLfence = false) :
    classify cfg i = none ∧
    lfenceStep cfg last i = ([i], false, ({} : Counters)) := by
  have hc : classify cfg i = none := by
    simp [classify, categoryGuard, hload, hcb, hret, hlf]
  exact ⟨hc, by simp [lfenceStep, hc]⟩

/-- C9 witness: the theorem applied to `callq *%rax` (register-indirect
call) with all toggles enabled and adjacency state true. -/
theorem register_indirect_untouched_witness :
    classify cfgAll icallReg = none ∧
    lfenceStep cfgAll true icallReg = ([icallReg], false, ({} : Counters)) :=
  register_indirect_untouched cfgAll true icallReg (Or.inl rfl)
    rfl rfl rfl rfl

/-- Reduction lemmas: no synthesized instruction is a conditional branch. -/
@[simp] theorem isCondBranch_lfence :
    Inst.lfence.isConditionalBranch = false := rfl

/-- Reduction lemma for `notq`. -/
@[simp] theorem isCondBranch_notq :
    Inst.notq.isConditionalBranch = false := rfl

/-- Reduction lemma for `pushReg`. -/
@[simp] theorem isCondBranch_pushReg (r : Nat) :
    (Inst.pushReg r).isConditionalBranch = false := rfl

/-- Reduction lemma for `pushMem`. -/
@[simp] theorem isCondBranch_pushMem (m : MemOperand) :
    (Inst.pushMem m).isConditionalBranch = false := rfl

/-- Reduction lemma for `popReg`. -/
@[simp] theorem isCondBranch_popReg (r : Nat) :
    (Inst.popReg r).isConditionalBranch = false := rfl

/-- Reduction lemma for `lea`. -/
@[simp] theorem isCondBranch_lea (o : Int) (r : Nat) :
    (Inst.lea o r).isConditionalBranch = false := rfl

/-- Reduction lemma for `saveToStack`. -/
@[simp] theorem isCondBranch_saveToStack (r : Nat) :
    (Inst.saveToStack r).isConditionalBranch = false := rfl

/-- Reduction lemma for the synthesized return. -/
@[simp] theorem isCondBranch_ret : Inst.ret.isConditionalBranch = false := rfl

/-- Reduction lemma: the synthesized fence satisfies `isLfence`. -/
@[simp] theorem isLfence_lfence : Inst.lfence.isLfence = true := rfl

/-- The synthesized fence hands adjacency state true to the next
iteration under every configuration. -/
@[simp] theorem stepState_lfence (cfg : Config) :
    stepState cfg Inst.lfence = true := by
  simp [stepState, classify_synth_lfence]

/-- Per-iteration facts feeding the adjacency invariant: the emitted chunk
satisfies `chainPred` for the license "is a fence and hands adjacency state
true to the next iteration", and when the instruction hands adjacency state
true onward, the chunk's last element carries that license. -/
theorem lfenceStep_chain (cfg : Config)
    (hcb : cfg.lfenceConditionalBranches = true)
    (st p : Bool) (hsp : st = true → p = true) (i : Inst) :
    chainPred (fun e => e.isLfence && stepState cfg e) p
      (lfenceStep cfg st i).1 = true ∧
    (stepState cfg i = true →
      endWith (fun e => e.isLfence && stepState cfg e) p
        (lfenceStep cfg st i).1 = true) := by
  cases hc : classify cfg i with
  | none =>
      have hb := condBr_false_of_classify cfg i hcb (by simp [hc])
      simp [lfenceStep, stepState, hc, chainPred, endWith, hb]
  | some c =>
    cases c with
    | condBranch =>
        cases hst : st with
        | true =>
            have hp := hsp hst
            simp [lfenceStep, stepState, hc, chainPred, endWith, hp]
        | false =>
            simp [lfenceStep, stepState, hc, chainPred, endWith,
              classify_synth_lfence]
    | load =>
        have hb := condBr_false_of_classify cfg i hcb (by simp [hc])
        simp [lfenceStep, stepState, hc, chainPred, endWith, hb,
          classify_synth_lfence]
    | ret =>
        simp [lfenceStep, stepState, hc, chainPred, endWith,
          classify_synth_lfence]
    | indirectCall =>
        have hb := condBr_false_of_classify cfg i hcb (by simp [hc])
        cases hm : i.memOperand <;>
          simp [lfenceStep, stepState, hc, hm, chainPred, endWith, hb,
            callSeq]
    | indirectJump =>
        have hb := condBr_false_of_classify cfg i hcb (by simp [hc])
        cases hm : i.memOperand <;>
          simp [lfenceStep, stepState, hc, hm, chainPred, endWith, hb,
            jumpSeq]
    | fence =>
        have hb := condBr_false_of_classify cfg i hcb (by simp [hc])
        have hlf : i.isLfence = true := by
          have hg := (classify_spec cfg i .fence |>.mp hc).1
          simpa [categoryGuard] using hg
        simp [lfenceStep, stepState, hc, chainPred, endWith, hb, hlf]

/-- The scan invariant: in the output of a block scan, every conditional
branch is immediately preceded by an element that is a fence and that hands
adjacency state true to the next iteration. -/
theorem runBlockGo_chain (cfg : Config)
    (hcb : cfg.lfenceConditionalBranches = true) :
    ∀ (bb : List Inst) (st p : Bool), (st = true → p = true) →
      chainPred (fun e => e.isLfence && stepState cfg e) p
        (runBlockGo cfg st bb).1 = true := by
  intro bb
  induction bb with
  | nil => intro st p _; rfl
  | cons i rest ih =>
      intro st p hsp
      have hstep := lfenceStep_chain cfg hcb st p hsp i
      have hout : (runBlockGo cfg st (i :: rest)).1 =
          (lfenceStep cfg st i).1 ++
            (runBlockGo cfg (stepState cfg i) rest).1 := by
        simp [runBlockGo, lfenceStep_state]
      rw [hout, chainPred_append, Bool.and_eq_true]
      exact ⟨hstep.1, ih (stepState cfg i) _ hstep.2⟩

/-- C5: for every conditional branch in a block of a non-ignored function,
with the branch toggle enabled, after the pass the instruction immediately
preceding the branch is a fence (first conjunct, over an arbitrary input
block); and when the instruction preceding the branch before the pass was
already a fence, no new fence is inserted for that branch and the
instructions at that site are left exactly as they were (second conjunct:
the scan maps the fence-then-branch pair to itself, from any incoming
adjacency state). -/
theorem branch_preceded_by_fence (cfg : Config) (bb rest : List Inst)
    (p br : Inst) (last : Bool)
    (hcb : cfg.lfenceConditionalBranches = true)
    (hp : p.isLfence = true) (hp1 : p.isConditionalBranch = false)
    (hp2 : p.isLoad = false) (hp3 : p.isReturn = false)
    (hp4 : p.isIndirectCall = false) (hp5 : p.isIndirectBranch = false)
    (hbr : br.isConditionalBranch = true) :
    branchesFenced false (runBasicBlock cfg bb).1 = true ∧
    (runBlockGo cfg last (p :: br :: rest)).1 =
      p :: br :: (runBlockGo cfg false rest).1 := by
  constructor
  · exact chainPred_mono (fun e => e.isLfence && stepState cfg e)
      (fun e => e.isLfence)
      (fun e he => (Bool.and_eq_true _ _ |>.mp he).1)
      _ false false (fun h => h)
      (runBlockGo_chain cfg hcb bb false false (fun h => h))
  · have hcp : classify cfg p = some .fence := by
      simp [classify, categoryGuard, hp, hp1, hp2, hp3, hp4, hp5]
    have hcbr : classify cfg br = some .condBranch := by
      simp [classify, categoryGuard, hcb, hbr]
    simp [runBlockGo, lfenceStep, hcp, hcbr]

/-- C5 witness: the theorem applied to the block `lfence; je` with all
toggles enabled: the branch stays fenced and the pair is left unchanged. -/
theorem branch_preceded_by_fence_witness :
    branchesFenced false (runBasicBlock cfgAll [origLfence, jeInst]).1 =
      true ∧
    (runBlockGo cfgAll false [origLfence, jeInst]).1 =
      origLfence :: jeInst :: (runBlockGo cfgAll false []).1 :=
  branch_preceded_by_fence cfgAll [origLfence, jeInst] [] origLfence jeInst
    false rfl rfl rfl rfl rfl rfl rfl rfl

/-- C6 counterexample: on the block containing a single load, the first run
produces load-then-fence, and the second run (identical configuration)
inserts a new fence immediately adjacent to the fence the first run
inserted. -/
theorem second_run_adjacent_fence :
    (runBasicBlock cfgAll [loadInst]).1 = [loadInst, .lfence] ∧
    (runBasicBlock cfgAll (runBasicBlock cfgAll [loadInst]).1).1 =
      [loadInst, .lfence, .lfence] := by decide

/-- When the branch toggle is off, the branch arm never matches, so it never
inserts a fence. -/
theorem branchIns_zero_of_toggle_off (cfg : Config)
    (hcb : cfg.lfenceConditionalBranches = false) :
    ∀ (l : List Inst) (p : Bool), branchFenceInsertions cfg p l = 0 := by
  intro l
  induction l with
  | nil => intro _; rfl
  | cons a l ih =>
      intro p
      rw [branchFenceInsertions]
      have h0 : ¬(classify cfg a = some .condBranch ∧ p = false) := by
        rintro ⟨hc, _⟩
        have hg := (classify_spec cfg a .condBranch |>.mp hc).1
        simp [categoryGuard, hcb] at hg
      rw [if_neg h0, ih]

/-- A list along which `chainPred` holds for the `stepState` license yields
no branch-arm fence insertion: every conditional branch is reached in
adjacency state true, so the adjacency suppression fires. -/
theorem branchIns_zero_of_chain (cfg : Config) :
    ∀ (l : List Inst) (p : Bool),
      chainPred (stepState cfg) p l = true →
      branchFenceInsertions cfg p l = 0 := by
  intro l
  induction l with
  | nil => intro _ _; rfl
  | cons a l ih =>
      intro p h
      rw [chainPred, Bool.and_eq_true] at h
      rw [branchFenceInsertions]
      have h0 : ¬(classify cfg a = some .condBranch ∧ p = false) := by
        rintro ⟨hc, hpf⟩
        have hg := (classify_spec cfg a .condBranch |>.mp hc).1
        rw [categoryGuard, Bool.and_eq_true] at hg
        have h1 := h.1
        rw [hg.2, hpf] at h1
        simp at h1
      rw [if_neg h0, ih (stepState cfg a) h.2]

/-- C6 amended: running the pass a second time with identical configuration
over the output of a first run inserts no fence at all through the
conditional-branch mitigator (every conditional branch in the first run's
output is reached in adjacency state true, so the suppression fires and no
fence is placed adjacent to the one from the first run); the load mitigator,
by contrast, does insert a fence adjacent to a first-run fence. -/
theorem second_run_no_branch_fence_insertions (cfg : Config)
    (bb : List Inst) :
    branchFenceInsertions cfg false (runBasicBlock cfg bb).1 = 0 := by
  cases hcb : cfg.lfenceConditionalBranches with
  | false => exact branchIns_zero_of_toggle_off cfg hcb _ false
  | true =>
      exact branchIns_zero_of_chain cfg _ false
        (chainPred_mono (fun e => e.isLfence && stepState cfg e)
          (stepState cfg)
          (fun e he => (Bool.and_eq_true _ _ |>.mp he).2)
          _ false false (fun h => h)
          (runBlockGo_chain cfg hcb bb false false (fun h => h)))

/-- C8: the dispatch chain assigns every instruction exactly one category or
none, never raising an error, and it resolves overlapping predicates by the
fixed precedence order conditional-branch, load, return, indirect-call,
indirect-jump, fence: the chain selects `c` exactly when `c`'s guard holds
and the guard of every higher-precedence category fails, so an instruction
matching an enabled higher-precedence category is never handled by a
lower-precedence mitigator. -/
theorem classify_precedence (cfg : Config) (i : Inst) (c : Category) :
    classify cfg i = some c ↔
      (categoryGuard cfg c i = true ∧
       ∀ c' : Category, c'.precIdx < c.precIdx →
         categoryGuard cfg c' i = false) :=
  classify_spec cfg i c

/-- C10 counterexample: a load (and likewise a return) whose immediately
preceding instruction is already a fence still gets its own fence emitted,
but the result contains no two adjacent fences: the load's new fence sits
after the load, and the return's sits after the two NOTs. -/
theorem fenced_load_no_adjacent_fences :
    (runBasicBlock cfgAll [origLfence, loadInst]).1 =
      [origLfence, loadInst, .lfence] ∧
    hasAdjacentFences (runBasicBlock cfgAll [origLfence, loadInst]).1 =
      false ∧
    (runBasicBlock cfgAll [origLfence, retInst]).1 =
      [origLfence, .notq, .notq, .lfence, retInst] ∧
    hasAdjacentFences (runBasicBlock cfgAll [origLfence, retInst]).1 =
      false := by decide

/-- C10 amended: only the conditional-branch arm consults the adjacency
state; the load and return mitigators emit their sequences unconditionally
(the load's fence is emitted after the load and the return's after two NOTs,
so the new fence is not adjacent to a fence preceding the matched
instruction), and the outcome of every non-branch arm is independent of the
incoming adjacency state. -/
theorem mitigators_insert_unconditionally (cfg : Config)
    (last last' : Bool) (i j k : Inst)
    (hi : classify cfg i = some .load)
    (hj : classify cfg j = some .ret)
    (hk : classify cfg k ≠ some .condBranch) :
    (lfenceStep cfg last i).1 = [i, .lfence] ∧
    (lfenceStep cfg last j).1 = [.notq, .notq, .lfence, j] ∧
    lfenceStep cfg last k = lfenceStep cfg last' k := by
  refine ⟨by simp [lfenceStep, hi], by simp [lfenceStep, hj], ?_⟩
  cases hc : classify cfg k with
  | none => simp [lfenceStep, hc]
  | some c =>
    cases c with
    | condBranch => exact absurd hc hk
    | load => simp [lfenceStep, hc]
    | ret => simp [lfenceStep, hc]
    | indirectCall => cases hm : k.memOperand <;> simp [lfenceStep, hc, hm]
    | indirectJump => cases hm : k.memOperand <;> simp [lfenceStep, hc, hm]
    | fence => simp [lfenceStep, hc]

/-- C10 witness: the theorem applied to a load and a return in adjacency
state true, and to the load under both adjacency states. -/
theorem mitigators_insert_unconditionally_witness :
    (lfenceStep cfgAll true loadInst).1 = [loadInst, .lfence] ∧
    (lfenceStep cfgAll true retInst).1 = [.notq, .notq, .lfence, retInst] ∧
    lfenceStep cfgAll true loadInst = lfenceStep cfgAll false loadInst :=
  mitigators_insert_unconditionally cfgAll true false loadInst retInst
    loadInst (by decide) (by decide) (by decide)

/-- Per-iteration branch-counter contribution: with the branch toggle on,
each scanned instruction contributes 1 to `LFencedBranches` exactly when it
is a conditional branch, whether or not the fence insertion was suppressed
by adjacency. -/
theorem lfenceStep_branches_delta (cfg : Config)
    (hcb : cfg.lfenceConditionalBranches = true) (st : Bool) (i : Inst) :
    (lfenceStep cfg st i).2.2.lfencedBranches =
      if i.isConditionalBranch then 1 else 0 := by
  cases hc : classify cfg i with
  | none =>
      have hb := condBr_false_of_classify cfg i hcb (by simp [hc])
      simp [lfenceStep, hc, hb]
  | some c =>
    cases c with
    | condBranch =>
        have hg := (classify_spec cfg i .condBranch |>.mp hc).1
        rw [categoryGuard, Bool.and_eq_true] at hg
        simp [lfenceStep, hc, hg.2]
    | load =>
        have hb := condBr_false_of_classify cfg i hcb (by simp [hc])
        simp [lfenceStep, hc, hb]
    | ret =>
        have hb := condBr_false_of_classify cfg i hcb (by simp [hc])
        simp [lfenceStep, hc, hb]
    | indirectCall =>
        have hb := condBr_false_of_classify cfg i hcb (by simp [hc])
        cases hm : i.memOperand <;> simp [lfenceStep, hc, hm, hb]
    | indirectJump =>
        have hb := condBr_false_of_classify cfg i hcb (by simp [hc])
        cases hm : i.memOperand <;> simp [lfenceStep, hc, hm, hb]
    | fence =>
        have hb := condBr_false_of_classify cfg i hcb (by simp [hc])
        simp [lfenceStep, hc, hb]

/-- Block-scan branch counter: the number of conditional branches in the
input block, independent of the starting adjacency state. -/
theorem runBlockGo_branches (cfg : Config)
    (hcb : cfg.lfenceConditionalBranches = true) :
    ∀ (bb : List Inst) (st : Bool),
      (runBlockGo cfg st bb).2.lfencedBranches =
        bb.countP (fun i => i.isConditionalBranch) := by
  intro bb
  induction bb with
  | nil => intro _; rfl
  | cons i rest ih =>
      intro st
      simp only [runBlockGo]
      rw [Counters.add_lfencedBranches,
        lfenceStep_branches_delta cfg hcb st i, ih, List.countP_cons]
      cases hx : i.isConditionalBranch <;> simp [hx, Nat.add_comm]

/-- Summing counter contributions projects componentwise on
`lfencedBranches`. -/
theorem sumCounters_lfencedBranches (l : List Counters) :
    (sumCounters l).lfencedBranches =
      (l.map Counters.lfencedBranches).sum := by
  induction l with
  | nil => rfl
  | cons a l ih =>
      rw [sumCounters, List.foldr_cons, Counters.add_lfencedBranches,
        List.map_cons, List.sum_cons]
      rw [show (List.foldr (· + ·) ({} : Counters) l) = sumCounters l
        from rfl, ih]

/-- Branch counter over the blocks of one non-ignored function. -/
theorem blocks_branches (cfg : Config)
    (hcb : cfg.lfenceConditionalBranches = true) :
    ∀ bs : List (List Inst),
      (sumCounters ((bs.map (runBasicBlock cfg)).map Prod.snd)).lfencedBranches =
        (bs.map fun bb => bb.countP fun i => i.isConditionalBranch).sum := by
  intro bs
  induction bs with
  | nil => rfl
  | cons bb bs ih =>
      rw [List.map_cons, List.map_cons, sumCounters, List.foldr_cons,
        Counters.add_lfencedBranches, List.map_cons, List.sum_cons]
      rw [show (List.foldr (· + ·) ({} : Counters)
          ((bs.map (runBasicBlock cfg)).map Prod.snd)) =
        sumCounters ((bs.map (runBasicBlock cfg)).map Prod.snd) from rfl, ih]
      rw [show runBasicBlock cfg bb = runBlockGo cfg false bb from rfl,
        runBlockGo_branches cfg hcb bb false]

/-- C4: with the master switch and branch toggle enabled, the final branch
counter equals the number of conditional-branch sites in the non-ignored
functions — every matched conditional branch is counted, including those
whose fence insertion was suppressed by adjacency, so the counter reflects
hazard sites observed, not fences physically emitted. -/
theorem branch_counter_counts_matches (cfg : Config)
    (fns : List BinaryFunction)
    (hm : cfg.insertLFences = true)
    (hcb : cfg.lfenceConditionalBranches = true) :
    (runOnFunctions cfg fns).2.lfencedBranches = condBranchSites fns := by
  rw [runOnFunctions, hm]
  simp only [Bool.not_true, Bool.false_eq_true, if_false]
  induction fns with
  | nil => rfl
  | cons f fns ih =>
      rw [List.map_cons, List.map_cons, sumCounters, List.foldr_cons,
        Counters.add_lfencedBranches]
      rw [show (List.foldr (· + ·) ({} : Counters)
          ((fns.map (runOnFunction cfg)).map Prod.snd)) =
        sumCounters ((fns.map (runOnFunction cfg)).map Prod.snd) from rfl, ih]
      have hf : (runOnFunction cfg f).2.lfencedBranches =
          if f.ignored then 0
          else (f.blocks.map fun bb =>
            bb.countP fun i => i.isConditionalBranch).sum := by
        cases hig : f.ignored with
        | true => simp [runOnFunction, hig]
        | false =>
            rw [runOnFunction, hig]
            simp only [Bool.false_eq_true, if_false]
            exact blocks_branches cfg hcb f.blocks
      rw [hf]
      simp only [condBranchSites, List.map_cons, List.sum_cons]

/-- C4 witness: the theorem applied to a single function holding the block
`lfence; je`: the branch site is suppressed by adjacency (no fence
inserted), yet the counter still reads 1. -/
theorem branch_counter_counts_matches_witness :
    (runOnFunctions cfgAll [⟨false, [[origLfence, jeInst]]⟩]).2.lfencedBranches =
      condBranchSites [⟨false, [[origLfence, jeInst]]⟩] :=
  branch_counter_counts_matches cfgAll [⟨false, [[origLfence, jeInst]]⟩]
    rfl rfl
